import Mathlib

/-!
Shallow embedding of `l0pca/bunch/rank_one_update.py`.

The source operates on batched TensorFlow tensors.  The embedding models a
single batch element exactly: vectors become `List ℚ` (or `Fin n → ℝ` for the
update-vector constructor, whose orthogonal residual needs a real square
root), the candidate `mu_estimate` is a scalar, and the batched leading axis
is modelled separately as a `List` of per-element inputs (TensorFlow evaluates
an elementwise op independently at each index of the leading axis).  All
arithmetic is exact (`ℚ`/`ℝ`) rather than floating point.
-/

namespace RankOneUpdate

/-- Augmented eigenvalue poles, as built inside
`bunch_rational_function_denominator`: the source concatenates a zero in front
of `tf.math.square(S)` (a zero eigenvalue is prepended to the elementwise
square of `S`). -/
def augmented_evals (S : List ℚ) : List ℚ :=
  0 :: S.map (fun x => x ^ 2)

/-- `bunch_rational_function_numerator`: `tf.math.square(update_vec)`.  The
source also calls `batch_matrices.expand_dim_times` (repository code outside
`src/`; per the spec it only inserts singleton axes for broadcast alignment),
which changes no value in the unbatched embedding; `batch_dims` is retained
as a parameter. -/
def bunch_rational_function_numerator (update_vec : List ℚ) (batch_dims : ℕ) : List ℚ :=
  update_vec.map (fun x => x ^ 2)

/-- `bunch_rational_function_denominator`: per-pole terms `pole - mu_estimate`
over the augmented poles `0 :: S²`.  The source first computes
`norm = tf.linalg.norm(update_vec)` and never uses it; the unused value is
omitted here, the `update_vec` parameter is retained.  The singleton-axis
insertion (`batch_matrices.expand_dim_times`, broadcast bookkeeping against a
multidimensional `mu_estimate`) is trivial for a scalar `mu_estimate`. -/
def bunch_rational_function_denominator (update_vec : List ℚ) (S : List ℚ)
    (mu_estimate : ℚ) : List ℚ :=
  (augmented_evals S).map (fun pole => pole - mu_estimate)

/-- `bunch_rational_function_taylor_series`: for each order in
`tf.range(min_order, min_order + num_order)`, sum over the pole axis of
`numerator * denominator ^ (-(order + 1))`, then add `1` exactly at order 0
(`result += tf.cast(order == 0., ...)`).  In the unbatched embedding
`batch_dims = len(update_vec.shape) - 1 = 0`. -/
def bunch_rational_function_taylor_series (update_vec : List ℚ) (S : List ℚ)
    (mu_estimate : ℚ) (min_order : ℕ) (num_order : ℕ) : List ℚ :=
  (List.range' min_order num_order).map (fun (order : ℕ) =>
    (List.zipWith (fun nu de => nu * de ^ (-((order : ℤ) + 1)))
      (bunch_rational_function_numerator update_vec 0)
      (bunch_rational_function_denominator update_vec S mu_estimate)).sum
    + (if order = 0 then 1 else 0))

/-- Modelled from the spec: `batch_matrices.transpose` (repository code outside
`src/`), described as the transpose of a batched matrix; for one batch element
it is the matrix transpose. -/
def batch_transpose {n : ℕ} (M : Matrix (Fin n) (Fin n) ℝ) :
    Matrix (Fin n) (Fin n) ℝ :=
  M.transpose

/-- `cov[..., append_column_index, :]` followed by
`tf.gather(cov_slice, eig_column_indices)`: the cross-covariance row of the
appended column restricted to the already-decomposed columns.  (`tf.gather`
with no axis argument indexes axis 0 of the slice, so the covariance slice
itself carries no batch axis.) -/
def cov_lookup {n m : ℕ} (eig_column_indices : Fin n → Fin m)
    (append_column_index : Fin m) (cov : Matrix (Fin m) (Fin m) ℝ) :
    Fin n → ℝ :=
  fun i => cov append_column_index (eig_column_indices i)

/-- The trailing `N` entries of the update vector:
`matmul(transpose(eigenvectors), cov_lookup[..., :, None])[..., :, 0] / S`. -/
noncomputable def update_vec {n m : ℕ} (eig_column_indices : Fin n → Fin m)
    (S : Fin n → ℝ) (eigenvectors : Matrix (Fin n) (Fin n) ℝ)
    (append_column_index : Fin m) (cov : Matrix (Fin m) (Fin m) ℝ) :
    Fin n → ℝ :=
  fun i =>
    (batch_transpose eigenvectors).mulVec
        (cov_lookup eig_column_indices append_column_index cov) i / S i

/-- The radicand of the orthogonal residual:
`column_norms[append_column_index] ** 2 / (num_row - 1)
  - tf.linalg.norm(update_vec, axis=-1) ** 2`
(the norm is the square root of the sum of squares). -/
noncomputable def update_radicand {n m : ℕ} (eig_column_indices : Fin n → Fin m)
    (S : Fin n → ℝ) (eigenvectors : Matrix (Fin n) (Fin n) ℝ)
    (append_column_index : Fin m) (cov : Matrix (Fin m) (Fin m) ℝ)
    (column_norms : Fin m → ℝ) (num_row : ℤ) : ℝ :=
  column_norms append_column_index ^ 2 / ((num_row - 1 : ℤ) : ℝ)
    - Real.sqrt (∑ i,
        update_vec eig_column_indices S eigenvectors append_column_index cov i ^ 2) ^ 2

/-- `update_ortho = tf.math.sqrt(radicand)`.  IEEE `sqrt` of a negative
radicand is NaN; the embedding models the NaN case as `none` and a finite
result as `some`. -/
noncomputable def update_ortho {n m : ℕ} (eig_column_indices : Fin n → Fin m)
    (S : Fin n → ℝ) (eigenvectors : Matrix (Fin n) (Fin n) ℝ)
    (append_column_index : Fin m) (cov : Matrix (Fin m) (Fin m) ℝ)
    (column_norms : Fin m → ℝ) (num_row : ℤ) : Option ℝ :=
  if 0 ≤ update_radicand eig_column_indices S eigenvectors append_column_index cov
      column_norms num_row then
    some (Real.sqrt (update_radicand eig_column_indices S eigenvectors
      append_column_index cov column_norms num_row))
  else none

/-- `create_update_append_column`: the concatenation
`[update_ortho, update_vec]` along the last axis (entry 0 is the orthogonal
residual, entries 1..N the eigenbasis projection). -/
noncomputable def create_update_append_column {n m : ℕ}
    (eig_column_indices : Fin n → Fin m)
    (S : Fin n → ℝ) (eigenvectors : Matrix (Fin n) (Fin n) ℝ)
    (append_column_index : Fin m) (cov : Matrix (Fin m) (Fin m) ℝ)
    (column_norms : Fin m → ℝ) (num_row : ℤ) : Fin (n + 1) → Option ℝ :=
  Fin.cons
    (update_ortho eig_column_indices S eigenvectors append_column_index cov
      column_norms num_row)
    (fun i => some (update_vec eig_column_indices S eigenvectors
      append_column_index cov i))

/-- Batched `create_update_append_column`: TensorFlow evaluates each op of the
source independently at every index of the leading batch axis carried by `S`
and `eigenvectors` (the covariance slice is unbatched, see `cov_lookup`), so
the leading axis denotes to a `List.map` over per-element inputs. -/
noncomputable def create_update_append_column_batch {n m : ℕ}
    (eig_column_indices : Fin n → Fin m)
    (batch : List ((Fin n → ℝ) × Matrix (Fin n) (Fin n) ℝ))
    (append_column_index : Fin m) (cov : Matrix (Fin m) (Fin m) ℝ)
    (column_norms : Fin m → ℝ) (num_row : ℤ) : List (Fin (n + 1) → Option ℝ) :=
  batch.map fun p =>
    create_update_append_column eig_column_indices p.1 p.2 append_column_index
      cov column_norms num_row

/-- Batched `bunch_rational_function_numerator` over the leading axis of a
batched update vector; the batched call passes `batch_dims = 1`. -/
def bunch_rational_function_numerator_batch (batch : List (List ℚ)) :
    List (List ℚ) :=
  batch.map fun u => bunch_rational_function_numerator u 1

/-- Batched `bunch_rational_function_denominator` over a leading axis shared
by the update vector, `S` and `mu_estimate`. -/
def bunch_rational_function_denominator_batch
    (batch : List (List ℚ × List ℚ × ℚ)) : List (List ℚ) :=
  batch.map fun t => bunch_rational_function_denominator t.1 t.2.1 t.2.2

/-- Batched `bunch_rational_function_taylor_series` over a leading axis shared
by the update vector, `S` and `mu_estimate`; the requested orders are scalars
shared by the whole batch. -/
def bunch_rational_function_taylor_series_batch
    (batch : List (List ℚ × List ℚ × ℚ)) (min_order num_order : ℕ) :
    List (List ℚ) :=
  batch.map fun t =>
    bunch_rational_function_taylor_series t.1 t.2.1 t.2.2 min_order num_order

/-- Concrete input (spec §8 scenario): the already-decomposed columns 0 and 1
of a 3-column covariance matrix. -/
def exIdx2 : Fin 2 → Fin 3 := ![0, 1]

/-- Concrete input: S = [1, 3]. -/
noncomputable def exS2 : Fin 2 → ℝ := ![1, 3]

/-- Concrete input: covariance with appended-column cross terms [0.5, 0.2]. -/
noncomputable def exCov2 : Matrix (Fin 3) (Fin 3) ℝ :=
  !![0, 0, 1/2; 0, 0, 1/5; 1/2, 1/5, 1]

/-- Concrete input: the same covariance with an entry changed outside row 2
(the appended column's row). -/
noncomputable def exCov2b : Matrix (Fin 3) (Fin 3) ℝ :=
  !![9, 0, 1/2; 0, 0, 1/5; 1/2, 1/5, 1]

/-- Concrete input: every column norm is 1. -/
noncomputable def exNorms2 : Fin 3 → ℝ := fun _ => 1

/-- Concrete input: every column norm is 2 (large enough for a non-negative
orthogonal-residual radicand). -/
noncomputable def exNormsBig : Fin 3 → ℝ := fun _ => 2

/-- C1: for every order k in `[min_order, min_order + num_order)`, the entry of
the trailing axis of `bunch_rational_function_taylor_series` holding order k
equals the sum over all augmented poles i of
`vᵢ² * (poleᵢ - mu)^(-(k+1))`, plus 1 when k = 0 and with no adjustment for
any k ≥ 1. -/
theorem C1_taylor_series_coefficients (v S : List ℚ) (mu : ℚ)
    (min_order num_order k : ℕ)
    (hlen : v.length = S.length + 1)
    (hlo : min_order ≤ k) (hhi : k < min_order + num_order)
    (hmu : ∀ pole ∈ augmented_evals S, mu ≠ pole) :
    (bunch_rational_function_taylor_series v S mu min_order num_order)[k - min_order]? =
      some ((List.zipWith
            (fun vi pole => vi ^ 2 * (pole - mu) ^ (-((k : ℤ) + 1)))
            v (augmented_evals S)).sum
          + (if k = 0 then 1 else 0)) := by
  have hj : k - min_order < num_order := by omega
  have hk : min_order + 1 * (k - min_order) = k := by omega
  unfold bunch_rational_function_taylor_series bunch_rational_function_numerator
    bunch_rational_function_denominator
  rw [List.getElem?_map, List.getElem?_range' _ _ hj, Option.map_some', hk,
    List.zipWith_map]

/-- C1 witness at v = [1, 2], S = [3], mu = 1, min_order = 0, num_order = 2,
k = 1. -/
theorem C1_taylor_series_coefficients_witness :
    ([1, 2] : List ℚ).length = ([3] : List ℚ).length + 1 ∧
    (0 : ℕ) ≤ 1 ∧ (1 : ℕ) < 0 + 2 ∧
    (∀ pole ∈ augmented_evals [3], (1 : ℚ) ≠ pole) ∧
    (bunch_rational_function_taylor_series [1, 2] [3] 1 0 2)[1 - 0]? =
      some ((List.zipWith
            (fun vi pole => vi ^ 2 * (pole - 1) ^ (-(((1 : ℕ) : ℤ) + 1)))
            [1, 2] (augmented_evals [3])).sum
          + (if (1 : ℕ) = 0 then 1 else 0)) := by
  have hmu : ∀ pole ∈ augmented_evals [3], (1 : ℚ) ≠ pole := by
    norm_num [augmented_evals]
  exact ⟨rfl, Nat.zero_le 1, by omega, hmu,
    C1_taylor_series_coefficients [1, 2] [3] 1 0 2 1 rfl (Nat.zero_le 1) (by omega) hmu⟩

/-- C2 counterexample: on update_vec = [1, 1], S = [2], mu = 1, the
denominator terms are not those of the pole set `0 :: S` (the code squares S:
the result is [-1, 3], not [-1, 1]). -/
theorem C2_counterexample :
    ¬ bunch_rational_function_denominator [1, 1] [2] 1 =
        ((0 : ℚ) :: [2]).map (fun pole => pole - 1) := by
  norm_num [bunch_rational_function_denominator, augmented_evals]

/-- C2 (amended): `bunch_rational_function_denominator` builds the augmented
pole set as the zero scalar prepended to the elementwise square of S, and
returns per-term denominators `pole_i - mu` for each augmented pole i. -/
theorem C2_denominator_poles (u S : List ℚ) (mu : ℚ) :
    (bunch_rational_function_denominator u S mu).length = S.length + 1 ∧
    (bunch_rational_function_denominator u S mu)[0]? = some (0 - mu) ∧
    ∀ i (h : i < S.length),
      (bunch_rational_function_denominator u S mu)[i + 1]? =
        some ((S.get ⟨i, h⟩) ^ 2 - mu) := by
  refine ⟨by simp [bunch_rational_function_denominator, augmented_evals],
    by simp [bunch_rational_function_denominator, augmented_evals], ?_⟩
  intro i h
  simp [bunch_rational_function_denominator, augmented_evals,
    List.getElem?_map, List.getElem?_eq_getElem, h]

/-- C2 witness at u = [1, 1], S = [2], mu = 1, i = 0. -/
theorem C2_denominator_poles_witness :
    (0 : ℕ) < ([2] : List ℚ).length ∧
    (bunch_rational_function_denominator [1, 1] [2] 1)[0 + 1]? =
      some ((([2] : List ℚ).get ⟨0, by decide⟩) ^ 2 - 1) :=
  ⟨by decide, (C2_denominator_poles [1, 1] [2] 1).2.2 0 (by decide)⟩

/-- C3: the order-0, single-order Taylor series equals 1 plus the sum over
poles of numerator term / denominator term, computed directly. -/
theorem C3_order_zero_identity (v S : List ℚ) (mu : ℚ)
    (hmu : ∀ pole ∈ augmented_evals S, mu ≠ pole) :
    bunch_rational_function_taylor_series v S mu 0 1 =
      [1 + (List.zipWith (fun nu de => nu / de)
          (bunch_rational_function_numerator v 0)
          (bunch_rational_function_denominator v S mu)).sum] := by
  have hfun : (fun (nu de : ℚ) => nu * de ^ (-(((0 : ℕ) : ℤ) + 1))) =
      fun (nu de : ℚ) => nu / de := by
    funext nu de
    rw [show -(((0 : ℕ) : ℤ) + 1) = (-1 : ℤ) by norm_num, zpow_neg_one,
      div_eq_mul_inv]
  unfold bunch_rational_function_taylor_series
  rw [show List.range' 0 1 = [0] from rfl, List.map_cons, List.map_nil, hfun]
  norm_num [add_comm]

/-- C3 witness at v = [1, 2], S = [3], mu = 1. -/
theorem C3_order_zero_identity_witness :
    (∀ pole ∈ augmented_evals [3], (1 : ℚ) ≠ pole) ∧
    bunch_rational_function_taylor_series [1, 2] [3] 1 0 1 =
      [1 + (List.zipWith (fun nu de => nu / de)
          (bunch_rational_function_numerator [1, 2] 0)
          (bunch_rational_function_denominator [1, 2] [3] 1)).sum] := by
  have hmu : ∀ pole ∈ augmented_evals [3], (1 : ℚ) ≠ pole := by
    norm_num [augmented_evals]
  exact ⟨hmu, C3_order_zero_identity [1, 2] [3] 1 hmu⟩

/-- C9: the output of `bunch_rational_function_denominator` does not depend on
the update-vector argument (the norm the source computes from it is never
used). -/
theorem C9_denominator_independent_of_update_vec (u1 u2 S : List ℚ) (mu : ℚ) :
    bunch_rational_function_denominator u1 S mu =
      bunch_rational_function_denominator u2 S mu := rfl

/-- Evaluation helper: the gathered cross-covariance row of the §8 scenario. -/
theorem exLookup2 : cov_lookup exIdx2 2 exCov2 = ![1/2, (1/5 : ℝ)] := by
  funext i
  fin_cases i <;> simp [cov_lookup, exIdx2, exCov2]

/-- Evaluation helper: the eigenbasis projection entries of the §8 scenario
(eigenvectors = identity). -/
theorem exUpdateVec2 : update_vec exIdx2 exS2 1 2 exCov2 = ![1/2, (1/15 : ℝ)] := by
  funext i
  rw [update_vec, batch_transpose, Matrix.transpose_one, Matrix.one_mulVec, exLookup2]
  fin_cases i <;> norm_num [exS2]

/-- Evaluation helper: the squared norm of the §8 scenario's projection. -/
theorem exSumSq2 : ∑ i, update_vec exIdx2 exS2 1 2 exCov2 i ^ 2 = 229/900 := by
  rw [exUpdateVec2, Fin.sum_univ_two]
  norm_num

/-- Evaluation helper: the §8 scenario's radicand with column norm 1 is
negative. -/
theorem exRad2 : update_radicand exIdx2 exS2 1 2 exCov2 exNorms2 5 = -(1/225) := by
  rw [update_radicand, Real.sq_sqrt (by positivity), exSumSq2]
  norm_num [exNorms2]

/-- Evaluation helper: with column norm 2 instead, the radicand is positive. -/
theorem exRadBig : update_radicand exIdx2 exS2 1 2 exCov2 exNormsBig 5 = 671/900 := by
  rw [update_radicand, Real.sq_sqrt (by positivity), exSumSq2]
  norm_num [exNormsBig]

/-- C4: whenever the orthogonal-residual radicand is non-negative, the
returned vector [r, w] conserves variance:
`r² + ‖w‖² = column_norm² / (num_row - 1)`. -/
theorem C4_variance_conservation {n m : ℕ} (eig_column_indices : Fin n → Fin m)
    (S : Fin n → ℝ) (eigenvectors : Matrix (Fin n) (Fin n) ℝ)
    (append_column_index : Fin m) (cov : Matrix (Fin m) (Fin m) ℝ)
    (column_norms : Fin m → ℝ) (num_row : ℤ) (r : ℝ)
    (hrad : 0 ≤ update_radicand eig_column_indices S eigenvectors
      append_column_index cov column_norms num_row)
    (hr : create_update_append_column eig_column_indices S eigenvectors
      append_column_index cov column_norms num_row 0 = some r) :
    (∀ i : Fin n, create_update_append_column eig_column_indices S eigenvectors
        append_column_index cov column_norms num_row i.succ =
      some (update_vec eig_column_indices S eigenvectors append_column_index cov i)) ∧
    r ^ 2 + ∑ i, update_vec eig_column_indices S eigenvectors
        append_column_index cov i ^ 2 =
      column_norms append_column_index ^ 2 / ((num_row - 1 : ℤ) : ℝ) := by
  refine ⟨fun i => by simp [create_update_append_column], ?_⟩
  have h0 : create_update_append_column eig_column_indices S eigenvectors
      append_column_index cov column_norms num_row 0 =
      some (Real.sqrt (update_radicand eig_column_indices S eigenvectors
        append_column_index cov column_norms num_row)) := by
    simp [create_update_append_column, update_ortho, hrad]
  have hr' : Real.sqrt (update_radicand eig_column_indices S eigenvectors
      append_column_index cov column_norms num_row) = r :=
    Option.some.inj (h0.symm.trans hr)
  subst hr'
  rw [Real.sq_sqrt hrad]
  unfold update_radicand
  rw [Real.sq_sqrt (Finset.sum_nonneg fun i _ => sq_nonneg _)]
  ring

/-- C4 witness at the §8 scenario with column norm 2 (radicand 671/900 ≥ 0). -/
theorem C4_variance_conservation_witness :
    0 ≤ update_radicand exIdx2 exS2 1 2 exCov2 exNormsBig 5 ∧
    create_update_append_column exIdx2 exS2 1 2 exCov2 exNormsBig 5 0 =
      some (Real.sqrt (update_radicand exIdx2 exS2 1 2 exCov2 exNormsBig 5)) ∧
    ((∀ i : Fin 2, create_update_append_column exIdx2 exS2 1 2 exCov2 exNormsBig 5 i.succ =
        some (update_vec exIdx2 exS2 1 2 exCov2 i)) ∧
      Real.sqrt (update_radicand exIdx2 exS2 1 2 exCov2 exNormsBig 5) ^ 2 +
        ∑ i, update_vec exIdx2 exS2 1 2 exCov2 i ^ 2 =
        exNormsBig 2 ^ 2 / (((5 : ℤ) - 1 : ℤ) : ℝ)) := by
  have hrad : 0 ≤ update_radicand exIdx2 exS2 1 2 exCov2 exNormsBig 5 := by
    rw [exRadBig]; norm_num
  have hr : create_update_append_column exIdx2 exS2 1 2 exCov2 exNormsBig 5 0 =
      some (Real.sqrt (update_radicand exIdx2 exS2 1 2 exCov2 exNormsBig 5)) := by
    simp [create_update_append_column, update_ortho, hrad]
  exact ⟨hrad, hr,
    C4_variance_conservation exIdx2 exS2 1 2 exCov2 exNormsBig 5 _ hrad hr⟩

/-- C5 counterexample: on the spec's concrete scenario (S = [1, 3],
eigenvectors the 2×2 identity, cross terms [0.5, 0.2], column_norm = 1,
num_row = 5) the radicand defining the orthogonal residual is NOT
non-negative. -/
theorem C5_counterexample :
    ¬ 0 ≤ update_radicand exIdx2 exS2 1 2 exCov2 exNorms2 5 := by
  rw [exRad2]; norm_num

/-- C5 (amended): on the concrete scenario the trailing entries are
[0.5, 1/15 ≈ 0.0667] as expected, but the radicand equals -1/225 < 0, so the
orthogonal-residual entry is non-finite (NaN, modelled `none`) instead of a
real residual. -/
theorem C5_concrete_scenario :
    update_radicand exIdx2 exS2 1 2 exCov2 exNorms2 5 = -(1/225) ∧
    create_update_append_column exIdx2 exS2 1 2 exCov2 exNorms2 5 0 = none ∧
    create_update_append_column exIdx2 exS2 1 2 exCov2 exNorms2 5 (0 : Fin 2).succ =
      some (1/2) ∧
    create_update_append_column exIdx2 exS2 1 2 exCov2 exNorms2 5 (1 : Fin 2).succ =
      some (1/15) := by
  have hneg : ¬ 0 ≤ update_radicand exIdx2 exS2 1 2 exCov2 exNorms2 5 := by
    rw [exRad2]; norm_num
  refine ⟨exRad2, ?_, ?_, ?_⟩
  · simp [create_update_append_column, update_ortho, hneg]
  · simp [create_update_append_column, exUpdateVec2]
  · rw [create_update_append_column, Fin.cons_succ, exUpdateVec2]
    norm_num

/-- C6: when the radicand is negative the call still returns (no exception in
the embedding's total semantics): the first entry is the non-finite marker
`none` (NaN), the remaining entries are the unaffected projection values, and
every element of a batched call equals its own single-element call, so one
element's NaN cannot invalidate the others. -/
theorem C6_negative_radicand_propagates_nan {n m : ℕ}
    (eig_column_indices : Fin n → Fin m)
    (S : Fin n → ℝ) (eigenvectors : Matrix (Fin n) (Fin n) ℝ)
    (append_column_index : Fin m) (cov : Matrix (Fin m) (Fin m) ℝ)
    (column_norms : Fin m → ℝ) (num_row : ℤ)
    (hrad : update_radicand eig_column_indices S eigenvectors
      append_column_index cov column_norms num_row < 0) :
    create_update_append_column eig_column_indices S eigenvectors
        append_column_index cov column_norms num_row 0 = none ∧
    (∀ i : Fin n, create_update_append_column eig_column_indices S eigenvectors
        append_column_index cov column_norms num_row i.succ =
      some (update_vec eig_column_indices S eigenvectors append_column_index cov i)) ∧
    (∀ (batch : List ((Fin n → ℝ) × Matrix (Fin n) (Fin n) ℝ)) (k : ℕ)
        (hk : k < batch.length),
      (create_update_append_column_batch eig_column_indices batch
          append_column_index cov column_norms num_row)[k]? =
        some (create_update_append_column eig_column_indices (batch.get ⟨k, hk⟩).1
          (batch.get ⟨k, hk⟩).2 append_column_index cov column_norms num_row)) := by
  refine ⟨?_, fun i => by simp [create_update_append_column], ?_⟩
  · simp [create_update_append_column, update_ortho, not_le.mpr hrad]
  · intro batch k hk
    simp [create_update_append_column_batch, List.getElem?_map,
      List.getElem?_eq_getElem hk]

/-- C6 witness at the §8 scenario with column norm 1 (radicand -1/225 < 0);
the batched part is instantiated with a singleton batch. -/
theorem C6_negative_radicand_propagates_nan_witness :
    update_radicand exIdx2 exS2 1 2 exCov2 exNorms2 5 < 0 ∧
    create_update_append_column exIdx2 exS2 1 2 exCov2 exNorms2 5 0 = none ∧
    create_update_append_column exIdx2 exS2 1 2 exCov2 exNorms2 5 (0 : Fin 2).succ =
      some (update_vec exIdx2 exS2 1 2 exCov2 0) ∧
    (create_update_append_column_batch exIdx2 [(exS2, 1)] 2 exCov2 exNorms2 5)[0]? =
      some (create_update_append_column exIdx2 exS2 1 2 exCov2 exNorms2 5) := by
  have hrad : update_radicand exIdx2 exS2 1 2 exCov2 exNorms2 5 < 0 := by
    rw [exRad2]; norm_num
  have h := C6_negative_radicand_propagates_nan exIdx2 exS2 1 2 exCov2 exNorms2 5 hrad
  exact ⟨hrad, h.1, h.2.1 0, h.2.2 [(exS2, 1)] 0 (by simp)⟩

/-- C7: with orthonormal eigenvectors and nonzero eigenvalues, recombining the
trailing update-vector entries via `V · (S ⊙ w)` reproduces the gathered
cross-covariance row. -/
theorem C7_recovers_cross_covariance_row {n m : ℕ}
    (eig_column_indices : Fin n → Fin m)
    (S : Fin n → ℝ) (eigenvectors : Matrix (Fin n) (Fin n) ℝ)
    (append_column_index : Fin m) (cov : Matrix (Fin m) (Fin m) ℝ)
    (hV : eigenvectors.transpose * eigenvectors = 1)
    (hS : ∀ i, S i ≠ 0) :
    eigenvectors.mulVec (fun i =>
        S i * update_vec eig_column_indices S eigenvectors append_column_index cov i) =
      cov_lookup eig_column_indices append_column_index cov := by
  have hVV : eigenvectors * eigenvectors.transpose = 1 :=
    Matrix.mul_eq_one_comm.mp hV
  have hvec : (fun i =>
      S i * update_vec eig_column_indices S eigenvectors append_column_index cov i) =
      (batch_transpose eigenvectors).mulVec
        (cov_lookup eig_column_indices append_column_index cov) := by
    funext i
    simp only [update_vec]
    rw [mul_comm, div_mul_cancel₀ _ (hS i)]
  rw [hvec, batch_transpose, Matrix.mulVec_mulVec, hVV, Matrix.one_mulVec]

/-- C7 witness at the §8 scenario (identity eigenvectors, S = [1, 3]). -/
theorem C7_recovers_cross_covariance_row_witness :
    ((1 : Matrix (Fin 2) (Fin 2) ℝ).transpose * 1 = 1) ∧
    (∀ i, exS2 i ≠ 0) ∧
    (1 : Matrix (Fin 2) (Fin 2) ℝ).mulVec (fun i =>
        exS2 i * update_vec exIdx2 exS2 1 2 exCov2 i) =
      cov_lookup exIdx2 2 exCov2 := by
  have hV : (1 : Matrix (Fin 2) (Fin 2) ℝ).transpose * 1 = 1 := by simp
  have hS : ∀ i, exS2 i ≠ 0 := by
    intro i; fin_cases i <;> norm_num [exS2]
  exact ⟨hV, hS, C7_recovers_cross_covariance_row exIdx2 exS2 1 2 exCov2 hV hS⟩

/-- C8: evaluating a batch of K independent elements in one call yields, at
every batch position, the same result as the single-element call on that
element alone, for each of the four components. -/
theorem C8_batch_independence {n m : ℕ} :
    (∀ (eig_column_indices : Fin n → Fin m)
        (batch : List ((Fin n → ℝ) × Matrix (Fin n) (Fin n) ℝ))
        (append_column_index : Fin m) (cov : Matrix (Fin m) (Fin m) ℝ)
        (column_norms : Fin m → ℝ) (num_row : ℤ) (k : ℕ) (hk : k < batch.length),
      (create_update_append_column_batch eig_column_indices batch
          append_column_index cov column_norms num_row)[k]? =
        some (create_update_append_column eig_column_indices (batch.get ⟨k, hk⟩).1
          (batch.get ⟨k, hk⟩).2 append_column_index cov column_norms num_row)) ∧
    (∀ (batch : List (List ℚ)) (k : ℕ) (hk : k < batch.length),
      (bunch_rational_function_numerator_batch batch)[k]? =
        some (bunch_rational_function_numerator (batch.get ⟨k, hk⟩) 0)) ∧
    (∀ (batch : List (List ℚ × List ℚ × ℚ)) (k : ℕ) (hk : k < batch.length),
      (bunch_rational_function_denominator_batch batch)[k]? =
        some (bunch_rational_function_denominator (batch.get ⟨k, hk⟩).1
          (batch.get ⟨k, hk⟩).2.1 (batch.get ⟨k, hk⟩).2.2)) ∧
    (∀ (batch : List (List ℚ × List ℚ × ℚ)) (min_order num_order : ℕ)
        (k : ℕ) (hk : k < batch.length),
      (bunch_rational_function_taylor_series_batch batch min_order num_order)[k]? =
        some (bunch_rational_function_taylor_series (batch.get ⟨k, hk⟩).1
          (batch.get ⟨k, hk⟩).2.1 (batch.get ⟨k, hk⟩).2.2 min_order num_order)) := by
  refine ⟨?_, ?_, ?_, ?_⟩ <;> intros <;>
    simp [create_update_append_column_batch, bunch_rational_function_numerator_batch,
      bunch_rational_function_denominator_batch,
      bunch_rational_function_taylor_series_batch,
      bunch_rational_function_numerator,
      List.getElem?_map, List.getElem?_eq_getElem, *]

/-- C8 witness: singleton batches for each of the four components. -/
theorem C8_batch_independence_witness :
    ((create_update_append_column_batch exIdx2 [(exS2, 1)] 2 exCov2 exNorms2 5)[0]? =
      some (create_update_append_column exIdx2 exS2 1 2 exCov2 exNorms2 5)) ∧
    ((bunch_rational_function_numerator_batch [[1, 2]])[0]? =
      some (bunch_rational_function_numerator [1, 2] 0)) ∧
    ((bunch_rational_function_denominator_batch [([1, 1], [2], 1)])[0]? =
      some (bunch_rational_function_denominator [1, 1] [2] 1)) ∧
    ((bunch_rational_function_taylor_series_batch [([1, 2], [3], 1)] 0 2)[0]? =
      some (bunch_rational_function_taylor_series [1, 2] [3] 1 0 2)) :=
  ⟨(@C8_batch_independence 2 3).1 exIdx2 [(exS2, 1)] 2 exCov2 exNorms2 5 0 (by simp),
    (@C8_batch_independence 0 0).2.1 [[1, 2]] 0 (by simp),
    (@C8_batch_independence 0 0).2.2.1 [([1, 1], [2], 1)] 0 (by simp),
    (@C8_batch_independence 0 0).2.2.2 [([1, 2], [3], 1)] 0 2 0 (by simp)⟩

/-- C10: the update vector depends on the covariance matrix only through the
entries of row `append_column_index` at the positions listed in
`eig_column_indices`. -/
theorem C10_covariance_row_only_dependence {n m : ℕ}
    (eig_column_indices : Fin n → Fin m)
    (S : Fin n → ℝ) (eigenvectors : Matrix (Fin n) (Fin n) ℝ)
    (append_column_index : Fin m) (cov1 cov2 : Matrix (Fin m) (Fin m) ℝ)
    (column_norms : Fin m → ℝ) (num_row : ℤ)
    (h : ∀ i : Fin n, cov1 append_column_index (eig_column_indices i) =
      cov2 append_column_index (eig_column_indices i)) :
    create_update_append_column eig_column_indices S eigenvectors
        append_column_index cov1 column_norms num_row =
      create_update_append_column eig_column_indices S eigenvectors
        append_column_index cov2 column_norms num_row := by
  have hl : cov_lookup eig_column_indices append_column_index cov1 =
      cov_lookup eig_column_indices append_column_index cov2 := funext h
  unfold create_update_append_column update_ortho update_radicand update_vec
  rw [hl]

/-- C10 witness: two covariance matrices differing at entry (0, 0) but
agreeing on row 2 at columns 0 and 1 yield the same update vector. -/
theorem C10_covariance_row_only_dependence_witness :
    (∀ i : Fin 2, exCov2 2 (exIdx2 i) = exCov2b 2 (exIdx2 i)) ∧
    create_update_append_column exIdx2 exS2 1 2 exCov2 exNorms2 5 =
      create_update_append_column exIdx2 exS2 1 2 exCov2b exNorms2 5 := by
  have h : ∀ i : Fin 2, exCov2 2 (exIdx2 i) = exCov2b 2 (exIdx2 i) := by
    intro i; fin_cases i <;> simp [exIdx2, exCov2, exCov2b]
  exact ⟨h, C10_covariance_row_only_dependence exIdx2 exS2 1 2 exCov2 exCov2b
    exNorms2 5 h⟩

end RankOneUpdate
